import Mathlib

/-!
Verification of the publicodes-tools model compiler and `init` command.

The compiler part (`getModelFromSource` and its helpers) is modelled from the
specification, since only its documentation and re-export live under
`src/source/compilation/index.ts`.  The `init` command helpers
(`findPackageManager`, `generateBaseFiles`, `updatePackageJson`) are embedded
from `src/unnamed/part_000`.
-/

namespace PublicodesTools

/-- A rule name: a dotted or namespaced string identifier. -/
abbrev RuleName := String

/-- One attribute of a rule definition: a key paired with its value. -/
abbrev Attr := String × String

/-- Modelled from the spec: `RawDefinition` is the parsed DSL attribute tree of
one rule; we represent it as the list of its top-level attributes, which is the
granularity at which the spec's shallow override merge operates. -/
abbrev RawDefinition := List Attr

/-- First-match association lookup on string-keyed lists. -/
def alookup {α : Type} : List (String × α) → String → Option α
  | [], _ => none
  | (k, v) :: rest, n => if k = n then some v else alookup rest n

/-- Modelled from the spec: the origin of a rule, retained for error messages
(`{filePath | packageName}`). -/
inductive Origin where
  | file (path : String)
  | pkg (packageName : String)
deriving DecidableEq

/-- Modelled from the spec: a rule of the final table,
`{ name, definition, origin }`. -/
structure Rule where
  name : RuleName
  definition : RawDefinition
  origin : Origin
deriving DecidableEq

/-- Modelled from the spec: one requested rule of an import directive, a rule
name with optional override attributes. -/
structure RequestedRule where
  name : RuleName
  overrides : Option (List Attr)
deriving DecidableEq

/-- Modelled from the spec: an `importer!` directive,
`{ packageName, sourcePathHint?, requestedRules }`. -/
structure ImportDirective where
  packageName : String
  sourcePathHint : Option String
  requestedRules : List RequestedRule
deriving DecidableEq

/-- Modelled from the spec: a `PackageModel` is the compiled rule table of a
previously built package, `{ packageName, ruleTable }`. -/
structure PackageModel where
  packageName : String
  ruleTable : List (RuleName × RawDefinition)
deriving DecidableEq

/-- Modelled from the spec: the structured compile errors of the taxonomy in
the error-handling design. -/
inductive CompileError where
  | NoMatchError
  | ParseError (filePath : String) (line : Nat) (message : String)
  | PackageNotFoundError (packageName : String)
  | UnknownImportedRuleError (packageName : String) (ruleName : RuleName)
  | DuplicateRuleNameError (name : RuleName) (firstOrigin secondOrigin : Origin)
  | UnresolvedReferencesError (dangling : List (RuleName × RuleName))
deriving DecidableEq

/-- Modelled from the spec: one top-level entry of a parsed source file is
either a plain rule or an `importer!` directive (the reserved import-marker
key); directives are replaced by their expansion, never emitted. -/
inductive FileEntry where
  | rule (name : RuleName) (defn : RawDefinition)
  | importDirective (d : ImportDirective)
deriving DecidableEq

/-- Modelled from the spec: a parsed source file, with the path that becomes
its rules' origin. -/
structure SourceFile where
  path : String
  entries : List FileEntry
deriving DecidableEq

/-- Lookup of a rule definition by name inside a package rule table. -/
def lookupDef : List (RuleName × RawDefinition) → RuleName → Option RawDefinition
  | [], _ => none
  | (k, v) :: rest, n => if k = n then some v else lookupDef rest n

/-- Modelled from the spec: the default well-known path of a package's
compiled rule table, `<packageName>.model.json` at the package root. -/
def defaultModelPath (packageName : String) : String :=
  packageName ++ ".model.json"

/-- Modelled from the spec: the package-registry collaborator
`resolvePackage(name, sourceHint?) -> PackageModel | PackageNotFoundError`,
reading the pre-built rule table from the source-path hint, or from the
default well-known path when no hint is given.  The registry filesystem is a
partial map from paths to parsed rule tables. -/
def resolvePackage (registry : String → Option (List (RuleName × RawDefinition)))
    (d : ImportDirective) : Except CompileError PackageModel :=
  match registry (d.sourcePathHint.getD (defaultModelPath d.packageName)) with
  | some table => .ok ⟨d.packageName, table⟩
  | none => .error (.PackageNotFoundError d.packageName)

/-- Modelled from the spec: the closure loop of the import resolver, with
explicit fuel standing for the number of loop iterations still allowed.  In
each step the head of the frontier is skipped when already visited, otherwise
its definition is fetched from the package (failing with
`UnknownImportedRuleError` when absent), collected, and its extracted
references are appended to the frontier.  Returns `none` when the fuel runs
out before the frontier empties. -/
def closureFuel (extract : RawDefinition → List RuleName)
    (pkg : List (RuleName × RawDefinition)) (pkgName : String) :
    Nat → List RuleName → List RuleName → List (RuleName × RawDefinition) →
    Option (Except CompileError (List (RuleName × RawDefinition)))
  | 0, _, _, _ => none
  | _ + 1, [], _, collected => some (.ok collected.reverse)
  | fuel + 1, n :: rest, visited, collected =>
    if n ∈ visited then
      closureFuel extract pkg pkgName fuel rest visited collected
    else
      match lookupDef pkg n with
      | none => some (.error (.UnknownImportedRuleError pkgName n))
      | some d =>
        closureFuel extract pkg pkgName fuel (rest ++ extract d) (n :: visited)
          ((n, d) :: collected)

/-- An upper bound on the number of references extracted from any rule of the
package. -/
def maxRefs (extract : RawDefinition → List RuleName)
    (pkg : List (RuleName × RawDefinition)) : Nat :=
  pkg.foldr (fun p acc => max (extract p.2).length acc) 0

/-- The number of package table entries whose name is not yet visited. -/
def unvisitedCount (pkg : List (RuleName × RawDefinition))
    (visited : List RuleName) : Nat :=
  (pkg.map Prod.fst).countP (fun k => decide (¬ k ∈ visited))

/-- Fuel sufficient for the closure loop to terminate: each iteration either
consumes a frontier entry or processes an unvisited package rule, which can
enqueue at most `maxRefs` new frontier entries. -/
def closureBound (extract : RawDefinition → List RuleName)
    (pkg : List (RuleName × RawDefinition))
    (frontier visited : List RuleName) : Nat :=
  frontier.length + unvisitedCount pkg visited * (maxRefs extract pkg + 1) + 1

/-- Shallow attribute-level merge of override attributes into a definition:
the override wins on attribute-key conflict, all other attributes of the
original definition are kept. -/
def applyOverrides (ov defn : List Attr) : List Attr :=
  ov ++ defn.filter (fun a => (alookup ov a.1).isNone)

/-- The names of a directive's requested rules, seeding the closure
frontier. -/
def reqNames (d : ImportDirective) : List RuleName :=
  d.requestedRules.map (fun r => r.name)

/-- Local rule names that are not themselves requested: they are pre-visited
so the closure only pulls dependencies absent from the local set. -/
def preVisited (localNames : List RuleName) (d : ImportDirective) :
    List RuleName :=
  localNames.filter (fun n => decide (¬ n ∈ reqNames d))

/-- The override attributes the directive carries for a rule name, when it is
one of the originally requested rules. -/
def overrideFor (d : ImportDirective) (n : RuleName) :
    Option (Option (List Attr)) :=
  alookup (d.requestedRules.map (fun r => (r.name, r.overrides))) n

/-- Apply the directive's override attributes to one collected rule: only an
originally requested rule with overrides is rewritten. -/
def applyReq (d : ImportDirective) (p : RuleName × RawDefinition) :
    RuleName × RawDefinition :=
  match overrideFor d p.1 with
  | some (some ov) => (p.1, applyOverrides ov p.2)
  | _ => p

/-- Modelled from the spec: expansion of one import directive — locate the
package, seed the frontier with the requested rule names, run the closure loop
(local rule names that are not themselves requested are pre-visited so the
closure only pulls rules absent from the local set), then merge the override
attributes into the definition of each originally requested rule only. -/
def expandImport (extract : RawDefinition → List RuleName)
    (registry : String → Option (List (RuleName × RawDefinition)))
    (localNames : List RuleName) (d : ImportDirective) :
    Except CompileError (List (RuleName × RawDefinition)) := do
  let pkg ← resolvePackage registry d
  match closureFuel extract pkg.ruleTable pkg.packageName
      (closureBound extract pkg.ruleTable (reqNames d) (preVisited localNames d))
      (reqNames d) (preVisited localNames d) [] with
  | none => .error (.PackageNotFoundError pkg.packageName)
  | some (.error e) => .error e
  | some (.ok collected) => .ok (collected.map (applyReq d))

/-- The rules a directive expansion contributes to the merge, tagged with
`origin = packageName`. -/
def expandDirective (extract : RawDefinition → List RuleName)
    (registry : String → Option (List (RuleName × RawDefinition)))
    (localNames : List RuleName) (d : ImportDirective) :
    Except CompileError (List Rule) :=
  (expandImport extract registry localNames d).map
    (fun pairs => pairs.map (fun p => ⟨p.1, p.2, .pkg d.packageName⟩))

/-- Expansion of all import directives, in order, concatenating their rules. -/
def expandAll (extract : RawDefinition → List RuleName)
    (registry : String → Option (List (RuleName × RawDefinition)))
    (localNames : List RuleName) :
    List ImportDirective → Except CompileError (List Rule)
  | [] => .ok []
  | d :: rest => do
    let rs ← expandDirective extract registry localNames d
    let more ← expandAll extract registry localNames rest
    .ok (rs ++ more)

/-- First rule of a table bearing the given name. -/
def findRule : List Rule → RuleName → Option Rule
  | [], _ => none
  | r :: rest, n => if r.name = n then some r else findRule rest n

/-- Modelled from the spec: sequential insertion into the rule table — on
inserting any rule whose name already exists, fail with
`DuplicateRuleNameError{name, firstOrigin, secondOrigin}`, never silently
overwriting the first rule. -/
def insertRules (table : List Rule) : List Rule → Except CompileError (List Rule)
  | [] => .ok table
  | r :: rest =>
    match findRule table r.name with
    | some first => .error (.DuplicateRuleNameError r.name first.origin r.origin)
    | none => insertRules (table ++ [r]) rest

/-- The dangling references of one rule: every extracted reference that names
no rule of the table, paired with the referencing rule's name. -/
def danglingOf (extract : RawDefinition → List RuleName) (table : List Rule)
    (r : Rule) : List (RuleName × RuleName) :=
  ((extract r.definition).filter (fun m => (findRule table m).isNone)).map
    (fun m => (r.name, m))

/-- All dangling references of the table, collected in one pass over all
rules. -/
def allDangling (extract : RawDefinition → List RuleName) (table : List Rule) :
    List (RuleName × RuleName) :=
  (table.map (danglingOf extract table)).flatten

/-- Modelled from the spec: reference validation — collect all dangling
references (not just the first) into a single `UnresolvedReferencesError`. -/
def validateReferences (extract : RawDefinition → List RuleName)
    (table : List Rule) : Except CompileError (List Rule) :=
  match allDangling extract table with
  | [] => .ok table
  | ds => .error (.UnresolvedReferencesError ds)

/-- Modelled from the spec: the model merger — insert local rules first, then
imported rules, then validate references. -/
def merge (extract : RawDefinition → List RuleName)
    (localRules importedRules : List Rule) : Except CompileError (List Rule) := do
  let t1 ← insertRules [] localRules
  let t2 ← insertRules t1 importedRules
  validateReferences extract t2

/-- The local rules a parsed file contributes, tagged with its path. -/
def localRulesOf (f : SourceFile) : List Rule :=
  f.entries.filterMap (fun e =>
    match e with
    | .rule n d => some ⟨n, d, .file f.path⟩
    | .importDirective _ => none)

/-- The import directives a parsed file contains. -/
def directivesOf (f : SourceFile) : List ImportDirective :=
  f.entries.filterMap (fun e =>
    match e with
    | .rule _ _ => none
    | .importDirective d => some d)

/-- All local rules of the compile, in file order. -/
def allLocalRules (files : List SourceFile) : List Rule :=
  (files.map localRulesOf).flatten

/-- All import directives of the compile, in file order. -/
def allDirectives (files : List SourceFile) : List ImportDirective :=
  (files.map directivesOf).flatten

/-- Modelled from the spec: the compile pipeline after parsing — collect the
local rules and import directives of every file, expand every directive, and
merge everything into the final rule table. -/
def compile (extract : RawDefinition → List RuleName)
    (registry : String → Option (List (RuleName × RawDefinition)))
    (files : List SourceFile) : Except CompileError (List Rule) := do
  let locals := allLocalRules files
  let imported ← expandAll extract registry (locals.map (fun r => r.name))
    (allDirectives files)
  merge extract locals imported

/-- The package managers the `init` command knows about
(`type PackageManager = 'npm' | 'yarn' | 'pnpm' | 'bun'`). -/
inductive PackageManager where
  | npm
  | yarn
  | pnpm
  | bun
deriving DecidableEq

/-- Embedding of `findPackageManager` from the `init` command: detect the
package manager from the lock files present in the project directory, probing
`yarn.lock`, `pnpm-lock.yaml`, `bun.lock`, `package-lock.json` in this order.
The filesystem is abstracted as the `existsSync` predicate on paths. -/
def findPackageManager (existsSync : String → Bool) : Option PackageManager :=
  if existsSync "yarn.lock" then some .yarn
  else if existsSync "pnpm-lock.yaml" then some .pnpm
  else if existsSync "bun.lock" then some .bun
  else if existsSync "package-lock.json" then some .npm
  else none

/-- A snapshot of the project directory: regular files with their contents,
and directories.  `fs.existsSync` is true on both kinds of entries. -/
structure FS where
  files : List (String × String)
  dirs : List String
deriving DecidableEq

/-- Embedding of `fs.existsSync`: a path exists when it is a file or a
directory of the snapshot. -/
def FS.existsSync (fs : FS) (p : String) : Bool :=
  (alookup fs.files p).isSome || decide (p ∈ fs.dirs)

/-- Embedding of `fs.writeFileSync`: set the content of a path, replacing any
previous content. -/
def FS.writeFileSync (fs : FS) (p c : String) : FS :=
  { fs with files := (p, c) :: fs.files.filter (fun q => decide (q.1 ≠ p)) }

/-- Embedding of `fs.mkdirSync`: add a directory. -/
def FS.mkdirSync (fs : FS) (p : String) : FS :=
  { fs with dirs := p :: fs.dirs }

/-- First guarded write of `generateBaseFiles`: generate `README.md` when it
does not exist. -/
def writeReadme (readme : String) (fs : FS) : FS :=
  if fs.existsSync "README.md" then fs else fs.writeFileSync "README.md" readme

/-- Second guarded step of `generateBaseFiles`: create the `src` directory
when it does not exist. -/
def makeSrcDir (fs : FS) : FS :=
  if fs.existsSync "src" then fs else fs.mkdirSync "src"

/-- Third guarded write of `generateBaseFiles`: generate the example
`src/base.publicodes` file when it does not exist. -/
def writeBasePublicodes (basePublicodes : String) (fs : FS) : FS :=
  if fs.existsSync "src/base.publicodes" then fs
  else fs.writeFileSync "src/base.publicodes" basePublicodes

/-- Embedding of `generateBaseFiles` from the `init` command: write
`README.md` when absent, create the `src` directory when absent, and write
`src/base.publicodes` when absent.  The generated contents
(`getReadmeContent(pjson, pkgManager)` and `BASE_PUBLICODES`) are passed in as
the `readme` and `basePublicodes` strings. -/
def generateBaseFiles (readme basePublicodes : String) (fs : FS) : FS :=
  writeBasePublicodes basePublicodes (makeSrcDir (writeReadme readme fs))

/-- Embedding of the `PackageJson` fields `updatePackageJson` manipulates;
object-valued fields are string-keyed association lists. -/
structure PackageJson where
  name : String
  type : Option String
  main : Option String
  types : Option String
  license : Option String
  version : Option String
  description : Option String
  author : Option String
  files : Option (List String)
  peerDependencies : List (String × String)
  devDependencies : List (String × String)
  scripts : List (String × String)
  publishConfig : Option (List (String × String))
deriving DecidableEq

/-- Embedding of the call `name.startsWith('@')`: since the probed prefix is
the single character `@`, this is the test that the first character of the
name is `@`. -/
def startsWithAt (s : String) : Bool := s.data.head? = some '@'

/-- Embedding of the object spread `{...a, ...b}`: one entry per key, where a
key of `b` wins over the same key of `a`. -/
def objSpread (a b : List (String × String)) : List (String × String) :=
  a.filter (fun p => (alookup b p.1).isNone) ++ b

/-- Embedding of `Init.updatePackageJson` from the `init` command (the
in-memory update, before the file write): `type`, `main` and `types` are
unconditionally overwritten with the base values; `license`, `version`,
`description` and `author` are kept when present and filled from the base
otherwise (`??`); `files`, `peerDependencies`, `devDependencies` and `scripts`
are merged; `publishConfig` is set to `{ access: 'public' }` when the package
name starts with `@`. -/
def updatePackageJson (base : PackageJson) (toolsVersion : String)
    (pkg : PackageJson) : PackageJson :=
  let step :=
    { pkg with
      type := base.type
      main := base.main
      types := base.types
      license := pkg.license.orElse fun _ => base.license
      version := pkg.version.orElse fun _ => base.version
      description := pkg.description.orElse fun _ => base.description
      author := pkg.author.orElse fun _ => base.author
      files := some (base.files.getD [] ++ pkg.files.getD [])
      peerDependencies := objSpread pkg.peerDependencies base.peerDependencies
      devDependencies :=
        objSpread pkg.devDependencies [("@publicodes/tools", "^" ++ toolsVersion)]
      scripts := objSpread pkg.scripts base.scripts }
  if startsWithAt pkg.name then { step with publishConfig := some [("access", "public")] }
  else step

/-- Simple reference extractor used by the concrete witnesses: a definition
references the value of its `ref` attribute, when present. -/
def demoExtract (d : RawDefinition) : List RuleName := (alookup d "ref").toList

/-- Concrete source files used by the witnesses: one file declaring `a` and
`b` with a reference to `a`. -/
def demoFiles : List SourceFile :=
  [⟨"main.publicodes", [.rule "a" [], .rule "b" [("ref", "a")]]⟩]

/-- The rule table that compiling `demoFiles` produces. -/
def demoTable : List Rule :=
  [⟨"a", [], .file "main.publicodes"⟩,
   ⟨"b", [("ref", "a")], .file "main.publicodes"⟩]

/-- A concrete package rule table used by the witnesses: `x` references `y`
and carries a `titre` attribute, `y` has no references. -/
def demoPkgTable : List (RuleName × RawDefinition) :=
  [("x", [("ref", "y"), ("titre", "Original")]), ("y", [("valeur", "1")])]

/-- A concrete registry publishing `demoPkgTable` as package `P` at its
default well-known path. -/
def demoRegistry : String → Option (List (RuleName × RawDefinition)) :=
  fun p => if p = "P.model.json" then some demoPkgTable else none

/-- A concrete import directive requesting `x` from package `P` with a
`titre` override. -/
def demoDirective : ImportDirective :=
  ⟨"P", none, [⟨"x", some [("titre", "Custom")]⟩]⟩

/-- A concrete source file declaring a local rule `a` next to the import
directive. -/
def demoImportFiles : List SourceFile :=
  [⟨"f.publicodes", [.rule "a" [], .importDirective demoDirective]⟩]

/-- The rule table that compiling `demoImportFiles` against `demoRegistry`
produces. -/
def demoImportTable : List Rule :=
  [⟨"a", [], .file "f.publicodes"⟩,
   ⟨"x", [("titre", "Custom"), ("ref", "y")], .pkg "P"⟩,
   ⟨"y", [("valeur", "1")], .pkg "P"⟩]

/-! Helper lemmas about association lookup. -/

theorem alookup_filter_ne {α : Type} (l : List (String × α)) (p q : String)
    (h : q ≠ p) :
    alookup (l.filter (fun e => decide (e.1 ≠ p))) q = alookup l q := by
  have hpq : ¬ p = q := fun hc => h hc.symm
  induction l with
  | nil => rfl
  | cons e rest ih =>
    obtain ⟨k, v⟩ := e
    by_cases hk : k = p
    · have hkq : ¬ k = q := fun hc => hpq (hk.symm.trans hc)
      rw [List.filter_cons, if_neg (by simp [hk]), ih]
      simp only [alookup]
      rw [if_neg hkq]
    · rw [List.filter_cons, if_pos (by simp [hk])]
      simp only [alookup]
      by_cases hq : k = q
      · rw [if_pos hq, if_pos hq]
      · rw [if_neg hq, if_neg hq]
        exact ih

theorem alookup_writeFileSync_ne (fs : FS) (p c : String) (q : String)
    (h : q ≠ p) :
    alookup (fs.writeFileSync p c).files q = alookup fs.files q := by
  have hpq : ¬ p = q := fun hp => h hp.symm
  show alookup ((p, c) :: fs.files.filter (fun e => decide (e.1 ≠ p))) q = _
  simp only [alookup, if_neg hpq]
  exact alookup_filter_ne _ _ _ h

theorem alookup_mkdirSync (fs : FS) (p q : String) :
    alookup (fs.mkdirSync p).files q = alookup fs.files q := rfl

/-- `C8`: `findPackageManager` detects the package manager from lock files in
a fixed priority order — `yarn.lock` selects yarn, else `pnpm-lock.yaml`
selects pnpm, else `bun.lock` selects bun, else `package-lock.json` selects
npm — and returns `none` when none of the four lock files exists, so the
earlier lock file always wins when several are present. -/
theorem findPackageManager_lock_priority (ex : String → Bool) :
    (ex "yarn.lock" = true → findPackageManager ex = some .yarn) ∧
    (ex "yarn.lock" = false → ex "pnpm-lock.yaml" = true →
      findPackageManager ex = some .pnpm) ∧
    (ex "yarn.lock" = false → ex "pnpm-lock.yaml" = false →
      ex "bun.lock" = true → findPackageManager ex = some .bun) ∧
    (ex "yarn.lock" = false → ex "pnpm-lock.yaml" = false →
      ex "bun.lock" = false → ex "package-lock.json" = true →
      findPackageManager ex = some .npm) ∧
    (ex "yarn.lock" = false → ex "pnpm-lock.yaml" = false →
      ex "bun.lock" = false → ex "package-lock.json" = false →
      findPackageManager ex = none) := by
  refine ⟨?_, ?_, ?_, ?_, ?_⟩ <;> intros <;> simp [findPackageManager, *]

/-- Witness for `C8`: with every lock file present, the earliest (`yarn.lock`)
wins. -/
theorem findPackageManager_lock_priority_witness :
    findPackageManager (fun _ => true) = some .yarn :=
  (findPackageManager_lock_priority (fun _ => true)).1 rfl

theorem existsSync_writeFileSync_ne (fs : FS) (p c q : String) (h : q ≠ p) :
    (fs.writeFileSync p c).existsSync q = fs.existsSync q := by
  have hd : (fs.writeFileSync p c).dirs = fs.dirs := rfl
  simp [FS.existsSync, alookup_writeFileSync_ne fs p c q h, hd]

theorem existsSync_mkdirSync_ne (fs : FS) (p q : String) (h : q ≠ p) :
    (fs.mkdirSync p).existsSync q = fs.existsSync q := by
  have hm : (fs.mkdirSync p).dirs = p :: fs.dirs := rfl
  have hf : (fs.mkdirSync p).files = fs.files := rfl
  simp [FS.existsSync, hm, hf, h]

theorem alookup_writeFileSync_self (fs : FS) (p c : String) :
    alookup (fs.writeFileSync p c).files p = some c := by
  show alookup ((p, c) :: fs.files.filter (fun q => decide (q.1 ≠ p))) p = some c
  simp [alookup]

theorem writeReadme_dirs (r : String) (fs : FS) : (writeReadme r fs).dirs = fs.dirs := by
  unfold writeReadme
  split <;> rfl

theorem writeReadme_lookup_ne (r : String) (fs : FS) (q : String)
    (h : q ≠ "README.md") :
    alookup (writeReadme r fs).files q = alookup fs.files q := by
  unfold writeReadme
  split
  · rfl
  · exact alookup_writeFileSync_ne fs _ r q h

theorem writeReadme_existsSync_ne (r : String) (fs : FS) (q : String)
    (h : q ≠ "README.md") :
    (writeReadme r fs).existsSync q = fs.existsSync q := by
  unfold writeReadme
  split
  · rfl
  · exact existsSync_writeFileSync_ne fs _ r q h

theorem writeReadme_lookup_self (r : String) (fs : FS) :
    alookup (writeReadme r fs).files "README.md" =
      if fs.existsSync "README.md" = true then alookup fs.files "README.md"
      else some r := by
  unfold writeReadme
  by_cases h : fs.existsSync "README.md" = true
  · simp only [h, if_true]
  · simp only [h, if_false, eq_false_of_ne_true h, Bool.false_eq_true]
    exact alookup_writeFileSync_self fs _ r

theorem makeSrcDir_files (fs : FS) : (makeSrcDir fs).files = fs.files := by
  unfold makeSrcDir
  split <;> rfl

theorem makeSrcDir_dirs (fs : FS) :
    (makeSrcDir fs).dirs =
      if fs.existsSync "src" = true then fs.dirs else "src" :: fs.dirs := by
  unfold makeSrcDir
  by_cases h : fs.existsSync "src" = true
  · simp only [h, if_true]
  · simp only [h, if_false, eq_false_of_ne_true h, Bool.false_eq_true]
    rfl

theorem makeSrcDir_existsSync_ne (fs : FS) (q : String) (h : q ≠ "src") :
    (makeSrcDir fs).existsSync q = fs.existsSync q := by
  unfold makeSrcDir
  split
  · rfl
  · exact existsSync_mkdirSync_ne fs _ q h

theorem writeBasePublicodes_dirs (b : String) (fs : FS) :
    (writeBasePublicodes b fs).dirs = fs.dirs := by
  unfold writeBasePublicodes
  split <;> rfl

theorem writeBasePublicodes_lookup_ne (b : String) (fs : FS) (q : String)
    (h : q ≠ "src/base.publicodes") :
    alookup (writeBasePublicodes b fs).files q = alookup fs.files q := by
  unfold writeBasePublicodes
  split
  · rfl
  · exact alookup_writeFileSync_ne fs _ b q h

theorem writeBasePublicodes_lookup_self (b : String) (fs : FS) :
    alookup (writeBasePublicodes b fs).files "src/base.publicodes" =
      if fs.existsSync "src/base.publicodes" = true then
        alookup fs.files "src/base.publicodes"
      else some b := by
  unfold writeBasePublicodes
  by_cases h : fs.existsSync "src/base.publicodes" = true
  · simp only [h, if_true]
  · simp only [h, if_false, eq_false_of_ne_true h, Bool.false_eq_true]
    exact alookup_writeFileSync_self fs _ b

/-- `C9`: `generateBaseFiles` never overwrites existing user files. The
`README.md` content is written only when no `README.md` exists, the `src`
directory is created only when absent, `src/base.publicodes` is written only
when that file does not already exist, and every other path is untouched, so
running init in a directory that already has these artifacts leaves their
contents unchanged. -/
theorem generateBaseFiles_frame (readme bp : String) (fs : FS) :
    (alookup (generateBaseFiles readme bp fs).files "README.md" =
      if fs.existsSync "README.md" = true then alookup fs.files "README.md"
      else some readme) ∧
    (alookup (generateBaseFiles readme bp fs).files "src/base.publicodes" =
      if fs.existsSync "src/base.publicodes" = true then
        alookup fs.files "src/base.publicodes"
      else some bp) ∧
    ((generateBaseFiles readme bp fs).dirs =
      if fs.existsSync "src" = true then fs.dirs else "src" :: fs.dirs) ∧
    (∀ p, p ≠ "README.md" → p ≠ "src/base.publicodes" →
      alookup (generateBaseFiles readme bp fs).files p = alookup fs.files p) := by
  unfold generateBaseFiles
  refine ⟨?_, ?_, ?_, ?_⟩
  · rw [writeBasePublicodes_lookup_ne _ _ _ (by decide), makeSrcDir_files,
      writeReadme_lookup_self]
  · rw [writeBasePublicodes_lookup_self,
      makeSrcDir_existsSync_ne _ _ (by decide),
      writeReadme_existsSync_ne _ _ _ (by decide), makeSrcDir_files,
      writeReadme_lookup_ne _ _ _ (by decide)]
  · rw [writeBasePublicodes_dirs, makeSrcDir_dirs,
      writeReadme_existsSync_ne _ _ _ (by decide), writeReadme_dirs]
  · intro p hp1 hp2
    rw [writeBasePublicodes_lookup_ne _ _ _ hp2, makeSrcDir_files,
      writeReadme_lookup_ne _ _ _ hp1]

/-- Witness for `C9`: in a directory already holding a `README.md`, an `src`
directory and an `src/base.publicodes` file, `generateBaseFiles` changes
nothing. -/
theorem generateBaseFiles_frame_witness :
    alookup (generateBaseFiles "gen" "base"
        ⟨[("README.md", "mine"), ("src/base.publicodes", "rules"), ("other", "o")],
          ["src"]⟩).files "README.md" = some "mine" ∧
    alookup (generateBaseFiles "gen" "base"
        ⟨[("README.md", "mine"), ("src/base.publicodes", "rules"), ("other", "o")],
          ["src"]⟩).files "src/base.publicodes" = some "rules" ∧
    (generateBaseFiles "gen" "base"
        ⟨[("README.md", "mine"), ("src/base.publicodes", "rules"), ("other", "o")],
          ["src"]⟩).dirs = ["src"] ∧
    alookup (generateBaseFiles "gen" "base"
        ⟨[("README.md", "mine"), ("src/base.publicodes", "rules"), ("other", "o")],
          ["src"]⟩).files "other" = some "o" := by
  obtain ⟨h1, h2, h3, h4⟩ := generateBaseFiles_frame "gen" "base"
    ⟨[("README.md", "mine"), ("src/base.publicodes", "rules"), ("other", "o")], ["src"]⟩
  refine ⟨?_, ?_, ?_, ?_⟩
  · rw [h1]
    decide
  · rw [h2]
    decide
  · rw [h3]
    decide
  · rw [h4 "other" (by decide) (by decide)]
    decide

/-- `C10`: `updatePackageJson` unconditionally overwrites `type`, `main` and
`types` with the base values, preserves already-present `license`, `version`,
`description` and `author` values (filling them from the base only when
undefined), and sets `publishConfig` to `{ access: 'public' }` exactly when
the package name starts with `@` (leaving it untouched otherwise). -/
theorem updatePackageJson_fields (base : PackageJson) (tv : String)
    (pkg : PackageJson) :
    ((updatePackageJson base tv pkg).type = base.type ∧
     (updatePackageJson base tv pkg).main = base.main ∧
     (updatePackageJson base tv pkg).types = base.types) ∧
    (∀ c, pkg.license = some c → (updatePackageJson base tv pkg).license = some c) ∧
    (pkg.license = none → (updatePackageJson base tv pkg).license = base.license) ∧
    (∀ c, pkg.version = some c → (updatePackageJson base tv pkg).version = some c) ∧
    (pkg.version = none → (updatePackageJson base tv pkg).version = base.version) ∧
    (∀ c, pkg.description = some c →
      (updatePackageJson base tv pkg).description = some c) ∧
    (pkg.description = none →
      (updatePackageJson base tv pkg).description = base.description) ∧
    (∀ c, pkg.author = some c → (updatePackageJson base tv pkg).author = some c) ∧
    (pkg.author = none → (updatePackageJson base tv pkg).author = base.author) ∧
    (startsWithAt pkg.name = true →
      (updatePackageJson base tv pkg).publishConfig = some [("access", "public")]) ∧
    (startsWithAt pkg.name = false →
      (updatePackageJson base tv pkg).publishConfig = pkg.publishConfig) := by
  simp only [updatePackageJson]
  by_cases h : startsWithAt pkg.name = true <;>
    [rw [if_pos h]; rw [if_neg h]] <;>
    refine ⟨⟨rfl, rfl, rfl⟩, fun c hc => ?_, fun hn => ?_, fun c hc => ?_,
      fun hn => ?_, fun c hc => ?_, fun hn => ?_, fun c hc => ?_, fun hn => ?_,
      fun hp => ?_, fun hp => ?_⟩ <;>
    first
      | rfl
      | (rw [hc]; exact rfl)
      | (rw [hn]; exact rfl)
      | (rw [h] at hp; exact absurd hp (by decide))
      | exact absurd hp h

/-- Witness for `C10`: a scoped package with a present license and an absent
description gets `publishConfig` set, keeps its license, and is filled with
the base description. -/
theorem updatePackageJson_fields_witness :
    (updatePackageJson
        ⟨"base", some "module", some "index.js", some "index.d.ts", some "MIT",
          some "0.1.0", some "base desc", some "base author", some [], [], [], [],
          none⟩
        "1.0.0"
        ⟨"@scope/pkg", none, none, none, some "Apache-2.0", none, none,
          some "me", none, [], [], [], none⟩).publishConfig =
      some [("access", "public")] ∧
    (updatePackageJson
        ⟨"base", some "module", some "index.js", some "index.d.ts", some "MIT",
          some "0.1.0", some "base desc", some "base author", some [], [], [], [],
          none⟩
        "1.0.0"
        ⟨"@scope/pkg", none, none, none, some "Apache-2.0", none, none,
          some "me", none, [], [], [], none⟩).license = some "Apache-2.0" ∧
    (updatePackageJson
        ⟨"base", some "module", some "index.js", some "index.d.ts", some "MIT",
          some "0.1.0", some "base desc", some "base author", some [], [], [], [],
          none⟩
        "1.0.0"
        ⟨"@scope/pkg", none, none, none, some "Apache-2.0", none, none,
          some "me", none, [], [], [], none⟩).description = some "base desc" := by
  obtain ⟨-, hlic, -, -, -, -, hdesc, -, -, hpub, -⟩ := updatePackageJson_fields
    ⟨"base", some "module", some "index.js", some "index.d.ts", some "MIT",
      some "0.1.0", some "base desc", some "base author", some [], [], [], [],
      none⟩
    "1.0.0"
    ⟨"@scope/pkg", none, none, none, some "Apache-2.0", none, none,
      some "me", none, [], [], [], none⟩
  exact ⟨hpub (by decide), hlic "Apache-2.0" rfl, hdesc rfl⟩

/-- `C7`: when an import directive gives no explicit source path, package
resolution reads the package's compiled rule table from the default
well-known path `<packageName>.model.json` at the package root, and an
unresolvable package name fails with `PackageNotFoundError`. -/
theorem resolvePackage_default_path
    (registry : String → Option (List (RuleName × RawDefinition)))
    (name : String) (rules : List RequestedRule) :
    (defaultModelPath name = name ++ ".model.json") ∧
    (∀ table, registry (name ++ ".model.json") = some table →
      resolvePackage registry ⟨name, none, rules⟩ = .ok ⟨name, table⟩) ∧
    (registry (name ++ ".model.json") = none →
      resolvePackage registry ⟨name, none, rules⟩ =
        .error (.PackageNotFoundError name)) := by
  refine ⟨rfl, ?_, ?_⟩ <;> intro h1 <;>
    first
    | (intro h2; simp [resolvePackage, defaultModelPath, h2])
    | simp [resolvePackage, defaultModelPath, h1]

/-- Witness for `C7`: a registry holding only `P.model.json` resolves package
`P` and fails on package `Q`. -/
theorem resolvePackage_default_path_witness :
    resolvePackage (fun p => if p = "P.model.json" then some [("x", [])] else none)
        ⟨"P", none, []⟩ = .ok ⟨"P", [("x", [])]⟩ ∧
    resolvePackage (fun p => if p = "P.model.json" then some [("x", [])] else none)
        ⟨"Q", none, []⟩ = .error (.PackageNotFoundError "Q") := by
  constructor
  · exact (resolvePackage_default_path
      (fun p => if p = "P.model.json" then some [("x", [])] else none) "P" []).2.1
      [("x", [])] (by decide)
  · exact (resolvePackage_default_path
      (fun p => if p = "P.model.json" then some [("x", [])] else none) "Q" []).2.2
      (by decide)

/-! Helper lemmas about the merge step. -/

theorem findRule_eq_none_iff (table : List Rule) (n : RuleName) :
    findRule table n = none ↔ ∀ r ∈ table, r.name ≠ n := by
  induction table with
  | nil => simp [findRule]
  | cons r rest ih =>
    by_cases h : r.name = n
    · simp [findRule, h]
    · simp [findRule, h, ih]

theorem findRule_eq_some (table : List Rule) (n : RuleName) (r : Rule)
    (h : findRule table n = some r) : r ∈ table ∧ r.name = n := by
  induction table with
  | nil => cases h
  | cons t rest ih =>
    unfold findRule at h
    by_cases ht : t.name = n
    · rw [if_pos ht] at h
      cases h
      exact ⟨List.mem_cons_self _ _, ht⟩
    · rw [if_neg ht] at h
      obtain ⟨h1, h2⟩ := ih h
      exact ⟨List.mem_cons_of_mem t h1, h2⟩

theorem insertRules_ok (rs : List Rule) :
    ∀ table out, insertRules table rs = .ok out →
      (∀ r ∈ table, r ∈ out) ∧ (∀ r ∈ rs, r ∈ out) ∧
      (∀ r ∈ out, r ∈ table ∨ r ∈ rs) ∧
      ((table.map Rule.name).Nodup → (out.map Rule.name).Nodup) := by
  induction rs with
  | nil =>
    intro table out h
    cases h
    exact ⟨fun r hr => hr, fun r hr => absurd hr (List.not_mem_nil r),
      fun r hr => Or.inl hr, fun h => h⟩
  | cons r rest ih =>
    intro table out h
    unfold insertRules at h
    cases hf : findRule table r.name with
    | some first =>
      rw [hf] at h
      cases h
    | none =>
      rw [hf] at h
      obtain ⟨h1, h2, h3, h4⟩ := ih (table ++ [r]) out h
      refine ⟨fun x hx => h1 x (List.mem_append_left _ hx),
        fun x hx => ?_, fun x hx => ?_, fun hnd => ?_⟩
      · rcases List.mem_cons.mp hx with hx | hx
        · exact h1 x (List.mem_append_right _ (by simp [hx]))
        · exact h2 x hx
      · rcases h3 x hx with hx | hx
        · rcases List.mem_append.mp hx with hx | hx
          · exact Or.inl hx
          · exact Or.inr (List.mem_cons.mpr (Or.inl (List.mem_singleton.mp hx)))
        · exact Or.inr (List.mem_cons_of_mem r hx)
      · refine h4 ?_
        rw [List.map_append]
        refine List.Nodup.append hnd (by simp) ?_
        intro a ha hb
        simp only [List.map_cons, List.map_nil, List.mem_singleton] at hb
        obtain ⟨x, hx, hxa⟩ := List.mem_map.mp ha
        have := (findRule_eq_none_iff table r.name).mp hf x hx
        exact this (hxa.trans hb)

theorem validateReferences_ok (extract : RawDefinition → List RuleName)
    (table out : List Rule) (h : validateReferences extract table = .ok out) :
    out = table ∧ allDangling extract table = [] := by
  unfold validateReferences at h
  cases hd : allDangling extract table with
  | nil =>
    rw [hd] at h
    cases h
    exact ⟨rfl, rfl⟩
  | cons p rest =>
    rw [hd] at h
    cases h

theorem except_bind_ok {ε α β : Type} (e : Except ε α) (f : α → Except ε β)
    (b : β) (h : (e >>= f) = .ok b) : ∃ a, e = .ok a ∧ f a = .ok b := by
  cases e with
  | error err => cases h
  | ok a => exact ⟨a, rfl, h⟩

theorem merge_ok (extract : RawDefinition → List RuleName)
    (locals imported table : List Rule)
    (h : merge extract locals imported = .ok table) :
    (∀ r ∈ locals, r ∈ table) ∧ (∀ r ∈ imported, r ∈ table) ∧
    (∀ r ∈ table, r ∈ locals ∨ r ∈ imported) ∧
    (table.map Rule.name).Nodup ∧ allDangling extract table = [] := by
  unfold merge at h
  obtain ⟨t1, ht1, h⟩ := except_bind_ok _ _ _ h
  obtain ⟨t2, ht2, h⟩ := except_bind_ok _ _ _ h
  obtain ⟨heq, hdang⟩ := validateReferences_ok extract t2 table h
  subst heq
  obtain ⟨-, hl1, hl3, hn1⟩ := insertRules_ok locals [] t1 ht1
  obtain ⟨hk1, hk2, hk3, hn2⟩ := insertRules_ok imported t1 _ ht2
  refine ⟨fun r hr => hk1 r (hl1 r hr), hk2, fun r hr => ?_,
    hn2 (hn1 (by simp)), hdang⟩
  rcases hk3 r hr with hx | hx
  · rcases hl3 r hx with hx | hx
    · exact absurd hx (List.not_mem_nil r)
    · exact Or.inl hx
  · exact Or.inr hx

theorem compile_ok (extract : RawDefinition → List RuleName)
    (registry : String → Option (List (RuleName × RawDefinition)))
    (files : List SourceFile) (table : List Rule)
    (h : compile extract registry files = .ok table) :
    ∃ imported,
      expandAll extract registry ((allLocalRules files).map (fun r => r.name))
          (allDirectives files) = .ok imported ∧
      merge extract (allLocalRules files) imported = .ok table := by
  unfold compile at h
  obtain ⟨imported, h1, h2⟩ := except_bind_ok _ _ _ h
  exact ⟨imported, h1, h2⟩

theorem mem_allDangling (extract : RawDefinition → List RuleName)
    (table : List Rule) (n m : RuleName) :
    (n, m) ∈ allDangling extract table ↔
      ∃ r ∈ table, r.name = n ∧ m ∈ extract r.definition ∧
        findRule table m = none := by
  unfold allDangling
  rw [List.mem_flatten]
  constructor
  · rintro ⟨l, hl, hmem⟩
    obtain ⟨r, hr, rfl⟩ := List.mem_map.mp hl
    unfold danglingOf at hmem
    obtain ⟨x, hx, heq⟩ := List.mem_map.mp hmem
    obtain ⟨hx1, hx2⟩ := List.mem_filter.mp hx
    cases heq
    exact ⟨r, hr, rfl, hx1, Option.isNone_iff_eq_none.mp (by simpa using hx2)⟩
  · rintro ⟨r, hr, rfl, hm, hnone⟩
    refine ⟨danglingOf extract table r, List.mem_map_of_mem _ hr, ?_⟩
    unfold danglingOf
    exact List.mem_map_of_mem _ (List.mem_filter.mpr ⟨hm, by simp [hnone]⟩)

/-- `C1`: for every successful compile, every rule-name key of the output
table is unique; and inserting any rule whose name already exists in the
table fails with `DuplicateRuleNameError` carrying the rule name and both
origins, never silently overwriting the first rule. -/
theorem compile_unique_names
    (extract : RawDefinition → List RuleName)
    (registry : String → Option (List (RuleName × RawDefinition)))
    (files : List SourceFile) (table : List Rule)
    (h : compile extract registry files = .ok table) :
    (table.map Rule.name).Nodup ∧
    (∀ t (r : Rule) rest first, findRule t r.name = some first →
      insertRules t (r :: rest) =
        .error (.DuplicateRuleNameError r.name first.origin r.origin)) := by
  obtain ⟨imported, hexp, hmerge⟩ := compile_ok extract registry files table h
  obtain ⟨-, -, -, hnodup, -⟩ := merge_ok _ _ _ _ hmerge
  refine ⟨hnodup, fun t r rest first hf => ?_⟩
  unfold insertRules
  rw [hf]

/-- Witness for `C1`: the demo compile succeeds with unique names, and
re-inserting a rule named `z` over a local rule `z` reports both origins. -/
theorem compile_unique_names_witness :
    compile demoExtract (fun _ => none) demoFiles = .ok demoTable ∧
    (demoTable.map Rule.name).Nodup ∧
    insertRules [⟨"z", [], .file "f.publicodes"⟩] [⟨"z", [], .pkg "P"⟩] =
      .error (.DuplicateRuleNameError "z" (.file "f.publicodes") (.pkg "P")) := by
  have h : compile demoExtract (fun _ => none) demoFiles = .ok demoTable := by rfl
  obtain ⟨h1, h2⟩ := compile_unique_names _ _ _ _ h
  exact ⟨h, h1, h2 [⟨"z", [], .file "f.publicodes"⟩] ⟨"z", [], .pkg "P"⟩ []
    ⟨"z", [], .file "f.publicodes"⟩ rfl⟩

/-- `C2`: in every successfully produced rule table, every rule name returned
by the reference extractor on any rule's definition is itself a key of the
table; and when dangling references exist, validation fails with a single
`UnresolvedReferencesError` aggregating all dangling
`(ruleName, missingReference)` pairs collected in one pass. -/
theorem compile_no_dangling
    (extract : RawDefinition → List RuleName)
    (registry : String → Option (List (RuleName × RawDefinition)))
    (files : List SourceFile) (table : List Rule)
    (h : compile extract registry files = .ok table) :
    (∀ r ∈ table, ∀ m ∈ extract r.definition, ∃ r2 ∈ table, r2.name = m) ∧
    (∀ t : List Rule, allDangling extract t ≠ [] →
      validateReferences extract t =
        .error (.UnresolvedReferencesError (allDangling extract t))) ∧
    (∀ (t : List Rule) (n m : RuleName), (n, m) ∈ allDangling extract t ↔
      ∃ r ∈ t, r.name = n ∧ m ∈ extract r.definition ∧ findRule t m = none) := by
  obtain ⟨imported, hexp, hmerge⟩ := compile_ok extract registry files table h
  obtain ⟨-, -, -, -, hdang⟩ := merge_ok _ _ _ _ hmerge
  refine ⟨?_, ?_, fun t n m => mem_allDangling extract t n m⟩
  · intro r hr m hm
    cases hfind : findRule table m with
    | some r2 =>
      obtain ⟨h1, h2⟩ := findRule_eq_some table m r2 hfind
      exact ⟨r2, h1, h2⟩
    | none =>
      have hmem : (r.name, m) ∈ allDangling extract table :=
        (mem_allDangling extract table r.name m).mpr ⟨r, hr, rfl, hm, hfind⟩
      rw [hdang] at hmem
      cases hmem
  · intro t hne
    cases hd : allDangling extract t with
    | nil => exact absurd hd hne
    | cons p rest =>
      unfold validateReferences
      rw [hd]

/-- Witness for `C2`: in the demo table the reference of `b` resolves, and a
table with one dangling reference fails with the aggregated list. -/
theorem compile_no_dangling_witness :
    (∃ r2 ∈ demoTable, r2.name = "a") ∧
    validateReferences demoExtract [⟨"c", [("ref", "missing")], .file "f.publicodes"⟩] =
      .error (.UnresolvedReferencesError [("c", "missing")]) := by
  obtain ⟨h1, h2, h3⟩ := compile_no_dangling demoExtract (fun _ => none)
    demoFiles demoTable rfl
  constructor
  · exact h1 ⟨"b", [("ref", "a")], .file "main.publicodes"⟩ (by decide) "a" (by decide)
  · have hv := h2 [⟨"c", [("ref", "missing")], .file "f.publicodes"⟩] (by decide)
    have hall : allDangling demoExtract
        [⟨"c", [("ref", "missing")], .file "f.publicodes"⟩] = [("c", "missing")] := rfl
    rw [hall] at hv
    exact hv

/-! Helper lemmas about the closure loop. -/

theorem lookupDef_mem (pkg : List (RuleName × RawDefinition)) (n : RuleName)
    (d : RawDefinition) (h : lookupDef pkg n = some d) : (n, d) ∈ pkg := by
  induction pkg with
  | nil => cases h
  | cons p rest ih =>
    obtain ⟨k, v⟩ := p
    unfold lookupDef at h
    by_cases hk : k = n
    · rw [if_pos hk] at h
      cases h
      exact hk ▸ List.mem_cons_self _ _
    · rw [if_neg hk] at h
      exact List.mem_cons_of_mem _ (ih h)

theorem length_extract_le_maxRefs (extract : RawDefinition → List RuleName)
    (pkg : List (RuleName × RawDefinition)) (n : RuleName) (d : RawDefinition)
    (h : (n, d) ∈ pkg) : (extract d).length ≤ maxRefs extract pkg := by
  induction pkg with
  | nil => cases h
  | cons p rest ih =>
    unfold maxRefs
    rcases List.mem_cons.mp h with heq | hmem
    · rw [← heq]
      exact le_max_left _ _
    · exact le_trans (ih hmem) (le_max_right _ _)

theorem countP_le_of_imp {α : Type} (l : List α) (p q : α → Bool)
    (h : ∀ a, p a = true → q a = true) : l.countP p ≤ l.countP q := by
  induction l with
  | nil => simp
  | cons a rest ih =>
    rw [List.countP_cons, List.countP_cons]
    by_cases hp : p a = true
    · rw [if_pos hp, if_pos (h a hp)]
      omega
    · rw [if_neg hp]
      split <;> omega

theorem unvisitedCount_cons (pkg : List (RuleName × RawDefinition))
    (n : RuleName) (visited : List RuleName)
    (hn : n ∈ pkg.map Prod.fst) (hnv : n ∉ visited) :
    unvisitedCount pkg (n :: visited) + 1 ≤ unvisitedCount pkg visited := by
  unfold unvisitedCount
  induction pkg with
  | nil => cases hn
  | cons p rest ih =>
    rw [List.map_cons] at hn
    rw [List.map_cons, List.countP_cons, List.countP_cons]
    rcases List.mem_cons.mp hn with heq | hmem
    · have h1 : decide (p.1 ∉ n :: visited) = false := by
        simp [← heq]
      have h2 : decide (p.1 ∉ visited) = true := by
        rw [← heq]
        simp [hnv]
      rw [h1, h2, if_neg (by simp), if_pos rfl]
      have hmono := countP_le_of_imp (rest.map Prod.fst)
        (fun k => decide (¬ k ∈ n :: visited)) (fun k => decide (¬ k ∈ visited))
        (fun a ha => by
          simp only [decide_eq_true_eq, List.mem_cons, not_or] at ha ⊢
          exact ha.2)
      omega
    · have hrec := ih hmem
      have himp : decide (p.1 ∉ n :: visited) = true →
          decide (p.1 ∉ visited) = true := by
        simp only [decide_eq_true_eq, List.mem_cons, not_or]
        exact fun ha => ha.2
      by_cases hp : decide (p.1 ∉ n :: visited) = true
      · rw [if_pos hp, if_pos (himp hp)]
        omega
      · rw [if_neg hp]
        split <;> omega

theorem closureFuel_isSome (extract : RawDefinition → List RuleName)
    (pkg : List (RuleName × RawDefinition)) (pkgName : String) :
    ∀ (fuel : Nat) frontier visited collected,
      closureBound extract pkg frontier visited ≤ fuel →
      (closureFuel extract pkg pkgName fuel frontier visited collected).isSome
        = true := by
  intro fuel
  induction fuel with
  | zero =>
    intro frontier visited collected h
    unfold closureBound at h
    omega
  | succ fuel ih =>
    intro frontier visited collected h
    match frontier with
    | [] => simp [closureFuel]
    | n :: rest =>
      rw [closureFuel]
      by_cases hv : n ∈ visited
      · rw [if_pos hv]
        refine ih rest visited collected ?_
        unfold closureBound at h ⊢
        rw [List.length_cons] at h
        omega
      · rw [if_neg hv]
        cases hl : lookupDef pkg n with
        | none => rfl
        | some d =>
          show (closureFuel extract pkg pkgName fuel (rest ++ extract d)
            (n :: visited) ((n, d) :: collected)).isSome = true
          refine ih (rest ++ extract d) (n :: visited) ((n, d) :: collected) ?_
          have hmem := lookupDef_mem pkg n d hl
          have hU := unvisitedCount_cons pkg n visited
            (List.mem_map_of_mem Prod.fst hmem) hv
          have hM := length_extract_le_maxRefs extract pkg n d hmem
          have hmul : unvisitedCount pkg (n :: visited) *
                (maxRefs extract pkg + 1) + (maxRefs extract pkg + 1) ≤
              unvisitedCount pkg visited * (maxRefs extract pkg + 1) := by
            calc unvisitedCount pkg (n :: visited) * (maxRefs extract pkg + 1) +
                  (maxRefs extract pkg + 1)
                = (unvisitedCount pkg (n :: visited) + 1) *
                  (maxRefs extract pkg + 1) := by ring
              _ ≤ unvisitedCount pkg visited * (maxRefs extract pkg + 1) :=
                  Nat.mul_le_mul_right _ hU
          unfold closureBound at h ⊢
          rw [List.length_cons] at h
          rw [List.length_append]
          omega

theorem closureFuel_nodup (extract : RawDefinition → List RuleName)
    (pkg : List (RuleName × RawDefinition)) (pkgName : String) :
    ∀ (fuel : Nat) frontier visited collected out,
      closureFuel extract pkg pkgName fuel frontier visited collected =
        some (.ok out) →
      (collected.map Prod.fst).Nodup →
      (∀ x ∈ collected.map Prod.fst, x ∈ visited) →
      (out.map Prod.fst).Nodup := by
  intro fuel
  induction fuel with
  | zero =>
    intro frontier visited collected out h
    cases h
  | succ fuel ih =>
    intro frontier visited collected out h hnd hsub
    match frontier with
    | [] =>
      rw [closureFuel] at h
      cases h
      simpa using hnd
    | n :: rest =>
      rw [closureFuel] at h
      by_cases hv : n ∈ visited
      · rw [if_pos hv] at h
        exact ih rest visited collected out h hnd hsub
      · rw [if_neg hv] at h
        cases hl : lookupDef pkg n with
        | none =>
          rw [hl] at h
          cases h
        | some d =>
          rw [hl] at h
          refine ih _ _ _ _ h ?_ ?_
          · rw [List.map_cons]
            exact List.nodup_cons.mpr ⟨fun hc => hv (hsub n hc), hnd⟩
          · intro x hx
            rw [List.map_cons] at hx
            rcases List.mem_cons.mp hx with hx | hx
            · exact List.mem_cons.mpr (Or.inl hx)
            · exact List.mem_cons_of_mem n (hsub x hx)

theorem closureFuel_invariant (extract : RawDefinition → List RuleName)
    (pkg : List (RuleName × RawDefinition)) (pkgName : String) :
    ∀ (fuel : Nat) frontier visited collected out,
      closureFuel extract pkg pkgName fuel frontier visited collected =
        some (.ok out) →
      (∀ n ∈ frontier, n ∈ out.map Prod.fst ∨ n ∈ visited) ∧
      (∀ p ∈ collected, p ∈ out) ∧
      (∀ p ∈ out, p ∈ collected ∨
        (lookupDef pkg p.1 = some p.2 ∧
          ∀ m ∈ extract p.2, m ∈ out.map Prod.fst ∨ m ∈ visited)) := by
  intro fuel
  induction fuel with
  | zero =>
    intro frontier visited collected out h
    cases h
  | succ fuel ih =>
    intro frontier visited collected out h
    match frontier with
    | [] =>
      rw [closureFuel] at h
      cases h
      refine ⟨by simp, fun p hp => List.mem_reverse.mpr hp,
        fun p hp => Or.inl (List.mem_reverse.mp hp)⟩
    | n :: rest =>
      rw [closureFuel] at h
      by_cases hv : n ∈ visited
      · rw [if_pos hv] at h
        obtain ⟨ha, hb, hc⟩ := ih rest visited collected out h
        refine ⟨fun x hx => ?_, hb, hc⟩
        rcases List.mem_cons.mp hx with hx | hx
        · exact Or.inr (hx ▸ hv)
        · exact ha x hx
      · rw [if_neg hv] at h
        cases hl : lookupDef pkg n with
        | none =>
          rw [hl] at h
          cases h
        | some d =>
          rw [hl] at h
          obtain ⟨ha, hb, hc⟩ := ih _ _ _ _ h
          have hnout : n ∈ out.map Prod.fst :=
            List.mem_map_of_mem Prod.fst (hb (n, d) (List.mem_cons_self _ _))
          have hvis : ∀ m : RuleName, m ∈ n :: visited →
              m ∈ out.map Prod.fst ∨ m ∈ visited := fun m hm => by
            rcases List.mem_cons.mp hm with hm | hm
            · exact Or.inl (hm ▸ hnout)
            · exact Or.inr hm
          refine ⟨fun x hx => ?_, fun p hp => hb p (List.mem_cons_of_mem _ hp),
            fun p hp => ?_⟩
          · rcases List.mem_cons.mp hx with hx | hx
            · exact Or.inl (hx ▸ hnout)
            · rcases ha x (List.mem_append_left _ hx) with hx2 | hx2
              · exact Or.inl hx2
              · exact hvis x hx2
          · rcases hc p hp with hp2 | hp2
            · rcases List.mem_cons.mp hp2 with hp3 | hp3
              · refine Or.inr ⟨hp3 ▸ hl, fun m hm => ?_⟩
                have hmf : m ∈ rest ++ extract d := by
                  refine List.mem_append_right _ ?_
                  have : p.2 = d := by rw [hp3]
                  exact this ▸ hm
                rcases ha m hmf with hm2 | hm2
                · exact Or.inl hm2
                · exact hvis m hm2
              · exact Or.inl hp3
            · refine Or.inr ⟨hp2.1, fun m hm => ?_⟩
              rcases hp2.2 m hm with hm2 | hm2
              · exact Or.inl hm2
              · exact hvis m hm2

theorem expandImport_ok (extract : RawDefinition → List RuleName)
    (registry : String → Option (List (RuleName × RawDefinition)))
    (localNames : List RuleName) (d : ImportDirective)
    (pairs : List (RuleName × RawDefinition))
    (h : expandImport extract registry localNames d = .ok pairs) :
    ∃ pkgM, resolvePackage registry d = .ok pkgM ∧
      ∃ collected,
        closureFuel extract pkgM.ruleTable pkgM.packageName
            (closureBound extract pkgM.ruleTable (reqNames d)
              (preVisited localNames d))
            (reqNames d) (preVisited localNames d) [] = some (.ok collected) ∧
        pairs = collected.map (applyReq d) := by
  unfold expandImport at h
  obtain ⟨pkgM, hres, h⟩ := except_bind_ok _ _ _ h
  refine ⟨pkgM, hres, ?_⟩
  cases hcf : closureFuel extract pkgM.ruleTable pkgM.packageName
      (closureBound extract pkgM.ruleTable (reqNames d)
        (preVisited localNames d))
      (reqNames d) (preVisited localNames d) [] with
  | none =>
    rw [hcf] at h
    cases h
  | some x =>
    rw [hcf] at h
    cases x with
    | error e => cases h
    | ok collected =>
      cases h
      exact ⟨collected, rfl, rfl⟩

theorem expandDirective_ok (extract : RawDefinition → List RuleName)
    (registry : String → Option (List (RuleName × RawDefinition)))
    (localNames : List RuleName) (d : ImportDirective) (rs : List Rule)
    (h : expandDirective extract registry localNames d = .ok rs) :
    ∃ pairs, expandImport extract registry localNames d = .ok pairs ∧
      rs = pairs.map (fun p => ⟨p.1, p.2, .pkg d.packageName⟩) := by
  unfold expandDirective at h
  cases he : expandImport extract registry localNames d with
  | error e =>
    rw [he] at h
    cases h
  | ok pairs =>
    rw [he] at h
    simp only [Except.map] at h
    cases h
    exact ⟨pairs, rfl, rfl⟩

theorem expandAll_ok (extract : RawDefinition → List RuleName)
    (registry : String → Option (List (RuleName × RawDefinition)))
    (localNames : List RuleName) :
    ∀ (ds : List ImportDirective) imported,
      expandAll extract registry localNames ds = .ok imported →
      (∀ d ∈ ds, ∃ rs,
        expandDirective extract registry localNames d = .ok rs ∧
        ∀ r ∈ rs, r ∈ imported) ∧
      (∀ r ∈ imported, ∃ d ∈ ds, ∃ rs,
        expandDirective extract registry localNames d = .ok rs ∧ r ∈ rs) := by
  intro ds
  induction ds with
  | nil =>
    intro imported h
    cases h
    exact ⟨fun d hd => absurd hd (List.not_mem_nil d),
      fun r hr => absurd hr (List.not_mem_nil r)⟩
  | cons d0 rest ih =>
    intro imported h
    unfold expandAll at h
    obtain ⟨rs0, hrs0, h⟩ := except_bind_ok _ _ _ h
    obtain ⟨more, hmore, h⟩ := except_bind_ok _ _ _ h
    cases h
    obtain ⟨ih1, ih2⟩ := ih more hmore
    constructor
    · intro d hd
      rcases List.mem_cons.mp hd with rfl | hd
      · exact ⟨rs0, hrs0, fun r hr => List.mem_append_left _ hr⟩
      · obtain ⟨rs, hrs, hsub⟩ := ih1 d hd
        exact ⟨rs, hrs, fun r hr => List.mem_append_right _ (hsub r hr)⟩
    · intro r hr
      rcases List.mem_append.mp hr with hr | hr
      · exact ⟨d0, List.mem_cons_self _ _, rs0, hrs0, hr⟩
      · obtain ⟨d, hd, rs, hrs, hmem⟩ := ih2 r hr
        exact ⟨d, List.mem_cons_of_mem _ hd, rs, hrs, hmem⟩

theorem mem_localRulesOf (f : SourceFile) (r : Rule) :
    r ∈ localRulesOf f ↔
      FileEntry.rule r.name r.definition ∈ f.entries ∧
      r.origin = .file f.path := by
  unfold localRulesOf
  rw [List.mem_filterMap]
  constructor
  · rintro ⟨e, he, hme⟩
    cases e with
    | rule n defn =>
      cases hme
      exact ⟨he, rfl⟩
    | importDirective d2 => cases hme
  · rintro ⟨he, ho⟩
    refine ⟨.rule r.name r.definition, he, ?_⟩
    show some (⟨r.name, r.definition, Origin.file f.path⟩ : Rule) = some r
    rw [← ho]

theorem mem_directivesOf (f : SourceFile) (d : ImportDirective) :
    d ∈ directivesOf f ↔ FileEntry.importDirective d ∈ f.entries := by
  unfold directivesOf
  rw [List.mem_filterMap]
  constructor
  · rintro ⟨e, he, hme⟩
    cases e with
    | rule n defn => cases hme
    | importDirective d2 =>
      cases hme
      exact he
  · intro he
    exact ⟨.importDirective d, he, rfl⟩

theorem mem_allLocalRules (files : List SourceFile) (r : Rule) :
    r ∈ allLocalRules files ↔ ∃ f ∈ files, r ∈ localRulesOf f := by
  unfold allLocalRules
  rw [List.mem_flatten]
  constructor
  · rintro ⟨l, hl, hm⟩
    obtain ⟨f, hf, rfl⟩ := List.mem_map.mp hl
    exact ⟨f, hf, hm⟩
  · rintro ⟨f, hf, hm⟩
    exact ⟨_, List.mem_map_of_mem _ hf, hm⟩

theorem mem_allDirectives (files : List SourceFile) (d : ImportDirective) :
    d ∈ allDirectives files ↔ ∃ f ∈ files, d ∈ directivesOf f := by
  unfold allDirectives
  rw [List.mem_flatten]
  constructor
  · rintro ⟨l, hl, hm⟩
    obtain ⟨f, hf, rfl⟩ := List.mem_map.mp hl
    exact ⟨f, hf, hm⟩
  · rintro ⟨f, hf, hm⟩
    exact ⟨_, List.mem_map_of_mem _ hf, hm⟩

theorem applyReq_fst (d : ImportDirective) (p : RuleName × RawDefinition) :
    (applyReq d p).1 = p.1 := by
  unfold applyReq
  cases overrideFor d p.1 with
  | none => rfl
  | some o =>
    cases o with
    | none => rfl
    | some ov => rfl

theorem map_fst_applyReq (d : ImportDirective)
    (collected : List (RuleName × RawDefinition)) :
    (collected.map (applyReq d)).map Prod.fst = collected.map Prod.fst := by
  rw [List.map_map]
  exact List.map_congr_left (fun p _ => applyReq_fst d p)

/-- `C6`: the import resolver's closure loop terminates for every input,
including packages whose rule reference graph contains cycles: with fuel
`closureBound` the loop always ends with a result (the frontier empties or an
error is reported before the fuel runs out), and the visited set keyed by
rule name guarantees that no rule is collected more than once (the output
keys are pairwise distinct).  No acyclicity assumption appears anywhere. -/
theorem closure_terminates (extract : RawDefinition → List RuleName)
    (pkg : List (RuleName × RawDefinition)) (pkgName : String)
    (frontier visited : List RuleName) :
    ((closureFuel extract pkg pkgName
        (closureBound extract pkg frontier visited) frontier visited
        []).isSome = true) ∧
    (∀ fuel out,
      closureFuel extract pkg pkgName fuel frontier visited [] =
        some (.ok out) →
      (out.map Prod.fst).Nodup) :=
  ⟨closureFuel_isSome extract pkg pkgName _ frontier visited [] (le_refl _),
   fun fuel out h =>
     closureFuel_nodup extract pkg pkgName fuel frontier visited [] out h
       (by simp) (by simp)⟩

/-- Witness for `C6`: a package with the cyclic reference graph
`x -> y -> x` is fully processed within the fuel bound, and each of `x`, `y`
is collected exactly once. -/
theorem closure_terminates_witness :
    (closureFuel demoExtract [("x", [("ref", "y")]), ("y", [("ref", "x")])]
        "P"
        (closureBound demoExtract
          [("x", [("ref", "y")]), ("y", [("ref", "x")])] ["x"] [])
        ["x"] [] []).isSome = true ∧
    ((([("x", [("ref", "y")]), ("y", [("ref", "x")])] :
        List (RuleName × RawDefinition)).map Prod.fst).Nodup) := by
  obtain ⟨h1, h2⟩ := closure_terminates demoExtract
    [("x", [("ref", "y")]), ("y", [("ref", "x")])] "P" ["x"] []
  exact ⟨h1, h2 6 [("x", [("ref", "y")]), ("y", [("ref", "x")])] rfl⟩

/-- `C3`: import expansion computes a complete dependency closure — for a
successful compile, if `A` is among a directive's requested rules and `A`'s
definition in the resolved package references `B`, itself a rule of the
package, then `B` is a key of the compiled table (pulled by the closure, or
already locally defined and then present as the local rule); and the
directive itself never appears in the table — every table rule is a file's
plain rule entry with file origin, or comes from a directive's expansion
tagged `origin = packageName`. -/
theorem compile_closure_complete
    (extract : RawDefinition → List RuleName)
    (registry : String → Option (List (RuleName × RawDefinition)))
    (files : List SourceFile) (table : List Rule) (d : ImportDirective)
    (pkgM : PackageModel) (A B : RuleName) (defA : RawDefinition)
    (hc : compile extract registry files = .ok table)
    (hd : d ∈ allDirectives files)
    (hA : A ∈ reqNames d)
    (hres : resolvePackage registry d = .ok pkgM)
    (hdef : lookupDef pkgM.ruleTable A = some defA)
    (hB : B ∈ extract defA)
    (hBpkg : B ∈ pkgM.ruleTable.map Prod.fst) :
    B ∈ table.map Rule.name ∧
    (∀ r ∈ table,
      (∃ f ∈ files, FileEntry.rule r.name r.definition ∈ f.entries ∧
        r.origin = .file f.path) ∨
      (∃ f ∈ files, ∃ d2, FileEntry.importDirective d2 ∈ f.entries ∧
        r.origin = .pkg d2.packageName)) := by
  obtain ⟨imported, hexp, hmerge⟩ := compile_ok extract registry files table hc
  obtain ⟨hlocmem, himpmem, htot, hnodup, hdang⟩ := merge_ok _ _ _ _ hmerge
  obtain ⟨hall1, hall2⟩ := expandAll_ok extract registry _ (allDirectives files)
    imported hexp
  constructor
  · obtain ⟨rs, hrs, hsub⟩ := hall1 d hd
    obtain ⟨pairs, hpairs, hwrap⟩ := expandDirective_ok _ _ _ _ _ hrs
    obtain ⟨pkgM2, hres2, collected, hcf, hmap⟩ := expandImport_ok _ _ _ _ _ hpairs
    rw [hres] at hres2
    injection hres2 with hres2
    subst hres2
    obtain ⟨ia, ib, ic⟩ := closureFuel_invariant extract pkgM.ruleTable
      pkgM.packageName _ _ _ _ _ hcf
    have hnotpre : A ∉ preVisited ((allLocalRules files).map (fun r => r.name)) d := by
      intro hmem
      have h2 := (List.mem_filter.mp hmem).2
      rw [decide_eq_true_eq] at h2
      exact h2 hA
    have hcov : ∀ x : RuleName,
        x ∈ collected.map Prod.fst ∨
          x ∈ preVisited ((allLocalRules files).map (fun r => r.name)) d →
        x ∈ table.map Rule.name := by
      intro x hx
      rcases hx with hx | hx
      · have hxp : x ∈ pairs.map Prod.fst := by
          rw [hmap, map_fst_applyReq]
          exact hx
        obtain ⟨p, hp, hpx⟩ := List.mem_map.mp hxp
        have hrmem : (⟨p.1, p.2, .pkg d.packageName⟩ : Rule) ∈ rs := by
          rw [hwrap]
          exact List.mem_map_of_mem _ hp
        have : (⟨p.1, p.2, .pkg d.packageName⟩ : Rule) ∈ table :=
          himpmem _ (hsub _ hrmem)
        exact hpx ▸ List.mem_map_of_mem Rule.name this
      · have hxl : x ∈ (allLocalRules files).map (fun r => r.name) :=
          (List.mem_filter.mp hx).1
        obtain ⟨rl, hrl, hrlx⟩ := List.mem_map.mp hxl
        exact hrlx ▸ List.mem_map_of_mem Rule.name (hlocmem rl hrl)
    rcases ia A hA with hAout | hAvis
    · obtain ⟨p, hpc, hpA⟩ := List.mem_map.mp hAout
      rcases ic p hpc with hpe | ⟨hlk, hrefs⟩
      · exact absurd hpe (List.not_mem_nil p)
      · rw [hpA, hdef] at hlk
        injection hlk with hlk
        rcases hrefs B (hlk ▸ hB) with hBc | hBv
        · exact hcov B (Or.inl hBc)
        · exact hcov B (Or.inr hBv)
    · exact absurd hAvis hnotpre
  · intro r hr
    rcases htot r hr with hloc | himp
    · obtain ⟨f, hf, hmem⟩ := (mem_allLocalRules files r).mp hloc
      obtain ⟨he, ho⟩ := (mem_localRulesOf f r).mp hmem
      exact Or.inl ⟨f, hf, he, ho⟩
    · obtain ⟨d2, hd2, rs, hrs, hmem⟩ := hall2 r himp
      obtain ⟨pairs, hpairs, hwrap⟩ := expandDirective_ok _ _ _ _ _ hrs
      subst hwrap
      obtain ⟨p, hp, rfl⟩ := List.mem_map.mp hmem
      obtain ⟨f, hf, hdf⟩ := (mem_allDirectives files d2).mp hd2
      exact Or.inr ⟨f, hf, d2, (mem_directivesOf f d2).mp hdf, rfl⟩

/-- Witness for `C3`: compiling a file that imports `x` from package `P`,
where `P.x` references `P.y`, produces a table containing `y` (and `x`), and
the directive is replaced by package-tagged rules. -/
theorem compile_closure_complete_witness :
    "y" ∈ demoImportTable.map Rule.name ∧ "x" ∈ demoImportTable.map Rule.name := by
  have h := compile_closure_complete demoExtract demoRegistry demoImportFiles
    demoImportTable demoDirective ⟨"P", demoPkgTable⟩ "x" "y"
    [("ref", "y"), ("titre", "Original")] rfl (by decide) (by decide) rfl rfl
    (by decide) (by decide)
  exact ⟨h.1, by decide⟩

theorem alookup_eq_none {α : Type} (l : List (String × α)) (k : String)
    (h : k ∉ l.map Prod.fst) : alookup l k = none := by
  induction l with
  | nil => rfl
  | cons p rest ih =>
    rw [List.map_cons] at h
    obtain ⟨q, v⟩ := p
    have hne : ¬ q = k := fun he => h (by rw [he]; exact List.mem_cons_self _ _)
    show (if q = k then some v else alookup rest k) = none
    rw [if_neg hne]
    exact ih (fun hm => h (List.mem_cons_of_mem _ hm))

theorem keys_overridePairs (d : ImportDirective) :
    (d.requestedRules.map (fun r => (r.name, r.overrides))).map Prod.fst =
      reqNames d := by
  rw [List.map_map]
  rfl

theorem overrideFor_eq_none (d : ImportDirective) (n : RuleName)
    (h : n ∉ reqNames d) : overrideFor d n = none := by
  refine alookup_eq_none _ n ?_
  rw [keys_overridePairs]
  exact h

theorem alookup_append {α : Type} (l1 l2 : List (String × α)) (k : String) :
    alookup (l1 ++ l2) k =
      match alookup l1 k with
      | some v => some v
      | none => alookup l2 k := by
  induction l1 with
  | nil => rfl
  | cons p rest ih =>
    obtain ⟨q, v⟩ := p
    show (if q = k then some v else alookup (rest ++ l2) k) =
      match (if q = k then some v else alookup rest k) with
      | some v => some v
      | none => alookup l2 k
    by_cases hk : q = k
    · rw [if_pos hk, if_pos hk]
    · rw [if_neg hk, if_neg hk]
      exact ih

theorem alookup_filter_keep (ov : List Attr) (d0 : List Attr) (k : String)
    (h : alookup ov k = none) :
    alookup (d0.filter (fun a => (alookup ov a.1).isNone)) k =
      alookup d0 k := by
  induction d0 with
  | nil => rfl
  | cons a rest ih =>
    obtain ⟨q, v⟩ := a
    by_cases hk : q = k
    · have hkeep : ((alookup ov (q, v).1).isNone : Bool) = true := by
        show (alookup ov q).isNone = true
        rw [hk, h]
        rfl
      rw [List.filter_cons, if_pos hkeep]
      show (if q = k then some v else _) = (if q = k then some v else alookup rest k)
      rw [if_pos hk, if_pos hk]
    · rw [List.filter_cons]
      cases hkeep : ((alookup ov (q, v).1).isNone : Bool) with
      | true =>
        rw [if_pos rfl]
        show (if q = k then some v else
          alookup (rest.filter (fun a => (alookup ov a.1).isNone)) k) = _
        rw [if_neg hk, ih]
        show alookup rest k = (if q = k then some v else alookup rest k)
        rw [if_neg hk]
      | false =>
        rw [if_neg (by simp)]
        rw [ih]
        show alookup rest k = (if q = k then some v else alookup rest k)
        rw [if_neg hk]

theorem applyOverrides_lookup (ov d0 : List Attr) (k : String) :
    alookup (applyOverrides ov d0) k =
      match alookup ov k with
      | some v => some v
      | none => alookup d0 k := by
  unfold applyOverrides
  rw [alookup_append]
  cases h : alookup ov k with
  | some v => rfl
  | none => exact alookup_filter_keep ov d0 k h

/-- `C4`: for a successful expansion, the directive's override attributes are
shallow-merged into the definition of each originally requested rule only —
the override wins on attribute-key conflict — while every collected rule that
is not among the requested names (in particular every transitively pulled
dependency) keeps its original package definition unchanged. -/
theorem expandImport_override_scope
    (extract : RawDefinition → List RuleName)
    (registry : String → Option (List (RuleName × RawDefinition)))
    (localNames : List RuleName) (d : ImportDirective)
    (pairs : List (RuleName × RawDefinition)) (pkgM : PackageModel)
    (h : expandImport extract registry localNames d = .ok pairs)
    (hres : resolvePackage registry d = .ok pkgM) :
    (∀ n x ov, (n, x) ∈ pairs → overrideFor d n = some (some ov) →
      ∃ d0, lookupDef pkgM.ruleTable n = some d0 ∧
        x = applyOverrides ov d0) ∧
    (∀ n x, (n, x) ∈ pairs → n ∉ reqNames d →
      lookupDef pkgM.ruleTable n = some x) ∧
    (∀ (ov d0 : List Attr) (k : String),
      alookup (applyOverrides ov d0) k =
        match alookup ov k with
        | some v => some v
        | none => alookup d0 k) := by
  obtain ⟨pkgM2, hres2, collected, hcf, hmap⟩ := expandImport_ok _ _ _ _ _ h
  rw [hres] at hres2
  injection hres2 with hres2
  subst hres2
  obtain ⟨ia, ib, ic⟩ := closureFuel_invariant extract pkgM.ruleTable
    pkgM.packageName _ _ _ _ _ hcf
  have hsrc : ∀ n x, (n, x) ∈ pairs →
      ∃ p ∈ collected, p.1 = n ∧ applyReq d p = (n, x) ∧
        lookupDef pkgM.ruleTable n = some p.2 := by
    intro n x hnx
    rw [hmap] at hnx
    obtain ⟨p, hp, hpe⟩ := List.mem_map.mp hnx
    have hfst : p.1 = n := by
      have := applyReq_fst d p
      rw [hpe] at this
      exact this.symm
    rcases ic p hp with hpe2 | ⟨hlk, -⟩
    · exact absurd hpe2 (List.not_mem_nil p)
    · exact ⟨p, hp, hfst, hpe, hfst ▸ hlk⟩
  refine ⟨?_, ?_, applyOverrides_lookup⟩
  · intro n x ov hnx hov
    obtain ⟨p, hp, hfst, happ, hlk⟩ := hsrc n x hnx
    refine ⟨p.2, hlk, ?_⟩
    unfold applyReq at happ
    rw [hfst, hov] at happ
    injection happ with h1 h2
    exact h2.symm
  · intro n x hnx hreq
    obtain ⟨p, hp, hfst, happ, hlk⟩ := hsrc n x hnx
    unfold applyReq at happ
    rw [hfst, overrideFor_eq_none d n hreq] at happ
    have : p.2 = x := by
      have := congrArg Prod.snd happ
      exact this
    exact this ▸ hlk

/-- Witness for `C4`: in the demo expansion the requested rule `x` gets the
`titre` override merged over its package definition, while its pulled
dependency `y` keeps its original definition. -/
theorem expandImport_override_scope_witness :
    (∃ d0, lookupDef demoPkgTable "x" = some d0 ∧
      [("titre", "Custom"), ("ref", "y")] =
        applyOverrides [("titre", "Custom")] d0) ∧
    lookupDef demoPkgTable "y" = some [("valeur", "1")] := by
  obtain ⟨h1, h2, h3⟩ := expandImport_override_scope demoExtract demoRegistry
    ["a"] demoDirective
    [("x", [("titre", "Custom"), ("ref", "y")]), ("y", [("valeur", "1")])]
    ⟨"P", demoPkgTable⟩ rfl rfl
  exact ⟨h1 "x" [("titre", "Custom"), ("ref", "y")] [("titre", "Custom")]
      (by decide) rfl,
    h2 "y" [("valeur", "1")] (by decide) (by decide)⟩

/-- `C5`: import expansion is idempotent — expanding the same directive twice
against the same registry and local names yields equal results, hence
order-independent equal sets of (name, definition) pairs; and a frontier
entry that is already in the visited set is skipped without changing the
closure outcome, so rules already queued can safely be re-visited. -/
theorem expandImport_idempotent (extract : RawDefinition → List RuleName)
    (registry : String → Option (List (RuleName × RawDefinition)))
    (localNames : List RuleName) (d : ImportDirective) :
    (∀ pairs1 pairs2,
      expandImport extract registry localNames d = .ok pairs1 →
      expandImport extract registry localNames d = .ok pairs2 →
      ∀ p, p ∈ pairs1 ↔ p ∈ pairs2) ∧
    (∀ (pkg : List (RuleName × RawDefinition)) (pkgName : String)
        (fuel : Nat) (n : RuleName) fr visited collected, n ∈ visited →
      closureFuel extract pkg pkgName (fuel + 1) (n :: fr) visited collected =
        closureFuel extract pkg pkgName fuel fr visited collected) := by
  constructor
  · intro pairs1 pairs2 h1 h2 p
    rw [h1] at h2
    injection h2 with h2
    rw [h2]
  · intro pkg pkgName fuel n fr visited collected hv
    rw [closureFuel, if_pos hv]

/-- Witness for `C5`: the demo expansion run twice yields the same pair set,
and an already-visited frontier head is skipped. -/
theorem expandImport_idempotent_witness :
    (("y", [("valeur", "1")]) ∈
        [("x", [("titre", "Custom"), ("ref", "y")]), ("y", [("valeur", "1")])] ↔
      ("y", [("valeur", "1")]) ∈
        [("x", [("titre", "Custom"), ("ref", "y")]), ("y", [("valeur", "1")])]) ∧
    closureFuel demoExtract demoPkgTable "P" 2 ["x"] ["x"] [] =
      closureFuel demoExtract demoPkgTable "P" 1 [] ["x"] [] := by
  obtain ⟨h1, h2⟩ := expandImport_idempotent demoExtract demoRegistry ["a"]
    demoDirective
  exact ⟨h1 _ _ rfl rfl ("y", [("valeur", "1")]),
    h2 demoPkgTable "P" 1 "x" [] ["x"] [] (by decide)⟩

end PublicodesTools
